import Mathlib

/-!
Verification of the `sg` syntax-aware search tool.

Strings are embedded as `List Char` (Rust `&str` is a sequence of Unicode
scalar values); byte offsets are computed from the UTF-8 encoded size of
each character, so the embedding speaks the same byte-offset language as
the Rust source while staying executable.
-/

/-- UTF-8 encoded byte length of a character (the value Rust's `char::len_utf8`
returns): 1 for scalar values below U+0080, 2 below U+0800, 3 below U+10000,
4 otherwise. -/
def charBytes (c : Char) : Nat :=
  if c.toNat < 0x80 then 1
  else if c.toNat < 0x800 then 2
  else if c.toNat < 0x10000 then 3
  else 4

/-- UTF-8 byte length of a string, as Rust's `str::len`. -/
def utf8Len (s : List Char) : Nat := (s.map charBytes).sum

/-- Models Rust `char::is_uppercase` (the Unicode `Uppercase` property) on the
characters appearing in this development: ASCII capitals `A`-`Z` (category Lu)
have the property, as does U+023A `Ⱥ` (Lu); U+01C5 `ǅ` is a titlecase letter
(category Lt), which does *not* have the Unicode `Uppercase` property; the
remaining characters used here are lowercase or non-letters. -/
def char_is_uppercase (c : Char) : Bool :=
  c.isUpper || c = 'Ⱥ'

/-- Models Rust `char::to_lowercase` on the characters appearing in this
development: ASCII `A`-`Z` map to `a`-`z`; U+01C5 `ǅ` maps to U+01C6 `ǆ`
(its lowercase mapping in UnicodeData); U+023A `Ⱥ` maps to U+2C65 `ⱥ`
(a 2-byte character whose lowercase form occupies 3 bytes in UTF-8); the
remaining characters used here are their own lowercase. -/
def char_to_lowercase (c : Char) : List Char :=
  if c.isUpper then [c.toLower]
  else if c = 'ǅ' then ['ǆ']
  else if c = 'Ⱥ' then ['ⱥ']
  else [c]

/-- Models Rust `str::to_lowercase`: concatenation of the lowercase mapping of
each character. -/
def to_lowercase (s : List Char) : List Char := s.flatMap char_to_lowercase

/-- Models Rust `char::is_alphabetic` (the Unicode `Alphabetic` property) on
the characters appearing in this development: ASCII letters, and the letters
U+00E9 `é`, U+01C5 `ǅ`, U+01C6 `ǆ`, U+023A `Ⱥ`, U+2C65 `ⱥ` are all
Alphabetic; ASCII digits, punctuation and whitespace are not. -/
def char_is_alphabetic (c : Char) : Bool :=
  c.isAlpha || c = 'é' || c = 'ǅ' || c = 'ǆ' || c = 'Ⱥ' || c = 'ⱥ'

/-- The longest prefix of `s` whose UTF-8 byte length is at most `n`; for `n`
on a character boundary this is Rust's `&text[..n]`. -/
def takeBytes : List Char → Nat → List Char
  | [], _ => []
  | c :: cs, n => if charBytes c ≤ n then c :: takeBytes cs (n - charBytes c) else []

/-- What remains of `s` after removing `takeBytes s n`; for `n` on a character
boundary this is Rust's `&text[n..]`. -/
def dropBytes : List Char → Nat → List Char
  | [], _ => []
  | c :: cs, n => if charBytes c ≤ n then dropBytes cs (n - charBytes c) else c :: cs

/-- Embeds `check_word_bounds` from `src/search/word.rs` (duplicated in
`src/main.rs`): a match spanning bytes `[match_begin, match_end)` of `text` is
at word bounds when the character just before `match_begin` (if any) is not
alphabetic and the character at `match_end` (if any) is not alphabetic. -/
def check_word_bounds (text : List Char) (match_begin match_end : Nat) : Bool :=
  ((takeBytes text match_begin).getLast?.all fun c => !char_is_alphabetic c) &&
  ((dropBytes text match_end).head?.all fun c => !char_is_alphabetic c)

/-- Embeds Rust's `str::match_indices` scan for a non-empty pattern `p`:
walk the haystack left to right; on a match of `p` emit the current byte
offset and resume after the match, otherwise advance one character.  The
`fuel` argument makes the recursion structural; `match_indices` below
supplies enough fuel for the whole haystack.  The empty pattern never
reaches this code: the tool's caller rejects an empty search pattern. -/
def match_indices_aux (p : List Char) : Nat → List Char → Nat → List Nat
  | 0, _, _ => []
  | _ + 1, [], _ => []
  | fuel + 1, c :: cs, i =>
    if p.isPrefixOf (c :: cs) then
      i :: match_indices_aux p fuel ((c :: cs).drop p.length) (i + utf8Len p)
    else
      match_indices_aux p fuel cs (i + charBytes c)

/-- Byte offsets of the leftmost-first non-overlapping occurrences of `p` in
`s`, as Rust's `s.match_indices(p)`. -/
def match_indices (s p : List Char) : List Nat :=
  match_indices_aux p (s.length + 1) s 0

/-- The case normalization `match_token` applies to the token before any
comparison: `token.to_lowercase()` when matching case-insensitively, the token
itself otherwise. -/
def fold_token (case_sensitive : Bool) (token : List Char) : List Char :=
  if case_sensitive then token else to_lowercase token

/-- Embeds `match_token` from `src/search/word.rs` (duplicated in
`src/main.rs`): lowercase the token when insensitive; for a whole-word
identifier compare the entire token against the pattern; otherwise collect
the `match_indices` occurrences, dropping those that fail
`check_word_bounds` when `whole_word` is set.  (Debug builds additionally
assert that an insensitive `pattern` is already lowercase on entry.) -/
def match_token (token pattern : List Char) (is_id whole_word case_sensitive : Bool) :
    List Nat :=
  let token := fold_token case_sensitive token
  if is_id && whole_word then
    if token = pattern then [0] else []
  else
    (match_indices token pattern).filter fun match_begin =>
      !(whole_word && !check_word_bounds token match_begin (match_begin + utf8Len pattern))

/-- Loop of `get_token_line_col`: take `idx` steps over the token's character
iterator, incrementing `line` and zeroing `col` on a literal `'\n'` and
incrementing `col` on any other step (including steps past the end of the
token, where the iterator yields nothing). -/
def get_token_line_col_loop : List Char → Nat → Nat → Nat → Nat × Nat
  | _, 0, line, col => (line, col)
  | [], n + 1, line, col => get_token_line_col_loop [] n line (col + 1)
  | c :: cs, n + 1, line, col =>
    if c = '\n' then get_token_line_col_loop cs n (line + 1) 0
    else get_token_line_col_loop cs n line (col + 1)

/-- Embeds `get_token_line_col` from `src/report.rs` (duplicated in
`src/main.rs`): starting from line delta 0 and column `column0`, walk `idx`
characters of the token and report the resulting (line delta, column). -/
def get_token_line_col (token : List Char) (column0 idx : Nat) : Nat × Nat :=
  get_token_line_col_loop token idx 0 column0

/-- Decidable occurrence test (specification side): `p` occurs in `s` at byte
offset `d` when some character-boundary split of `s` at byte offset `d` is
followed by `p`. -/
def occursAtB (s p : List Char) (d : Nat) : Bool :=
  (List.range (s.length + 1)).any fun k =>
    utf8Len (s.take k) == d && p.isPrefixOf (s.drop k)

/-- Occurrence of `p` in `s` at byte offset `d` (specification side,
propositional form). -/
def OccursAt (s p : List Char) (d : Nat) : Prop :=
  ∃ pre suf, s = pre ++ p ++ suf ∧ utf8Len pre = d

/-- Case policy of the search, from `src/cli.rs` (`Casing`): smart case,
always sensitive, or always insensitive. -/
inductive Casing
  | smart
  | sensitive
  | insensitive
deriving DecidableEq

/-- A compiled word search, from `src/main.rs` (`Pat`): the word to search
and whether to match case sensitively. -/
structure Pat where
  word : List Char
  case_sensitive : Bool
deriving DecidableEq

/-- Embeds `get_pat_sensitivity` from `mk_search_mode` in `src/main.rs`:
returns the (possibly adjusted) pattern together with its case sensitivity.
Smart case is sensitive exactly when the pattern contains an uppercase
character and leaves the pattern unchanged; `Insensitive` lowercases the
pattern; `Sensitive` leaves it unchanged. -/
def get_pat_sensitivity : Casing → List Char → List Char × Bool
  | Casing.smart, pat => (pat, pat.any char_is_uppercase)
  | Casing.sensitive, pat => (pat, true)
  | Casing.insensitive, pat => (to_lowercase pat, false)

/-- The `SearchMode::Pattern` construction of `mk_search_mode` in
`src/main.rs`. -/
def mk_pat (casing : Casing) (pat : List Char) : Pat :=
  let r := get_pat_sensitivity casing pat
  { word := r.1, case_sensitive := r.2 }

/-- Search mode from `src/main.rs` (`SearchMode`): a word pattern or a
tree-sitter query; the query is embedded as the query source string handed
to the tree-sitter compiler. -/
inductive SearchMode
  | pattern (p : Pat)
  | query (q : List Char)
deriving DecidableEq

/-- Embeds `mk_search_mode` from `src/main.rs` for literal query strings:
with no query, an absent pattern is a fatal CLI error (modeled `none`) and a
present one becomes a word search; a literal query string gets the dummy
capture `" @node"` appended before being handed to the tree-sitter query
compiler (an external collaborator; named queries are unimplemented in the
source). -/
def mk_search_mode (casing : Casing) (pat : Option (List Char))
    (query : Option (List Char)) : Option SearchMode :=
  match query with
  | none =>
    match pat with
    | none => none
    | some p => some (SearchMode.pattern (mk_pat casing p))
  | some q => some (SearchMode.query (q ++ " @node".data))

/-- Number of captures a tree-sitter query source string defines
(specification side): in tree-sitter query syntax every capture is written
`@name`, and `@` occurs nowhere else in the syntax, so counting `@`
characters counts captures. -/
def capture_count (q : List Char) : Nat := q.count '@'

/-- Language symbols start with this, from `src/dynamic.rs`
(`TS_SYM_PREFIX`). -/
def TS_SYM_PREFIX : List Char := "tree_sitter_".data

/-- A language symbol should not end with any of these, from
`src/dynamic.rs` (`TS_SYM_SUFFIXES`): the scanner-lifecycle entry points of
an external tokenizer extension. -/
def TS_SYM_SUFFIXES : List (List Char) :=
  ["external_scanner_create".data,
   "external_scanner_deserialize".data,
   "external_scanner_destroy".data,
   "external_scanner_reset".data,
   "external_scanner_scan".data,
   "external_scanner_serialize".data]

/-- Embeds `find_lang_sym` from `src/dynamic.rs`, abstracted over the
module's exported dynamic symbol table (read from the ELF file by the
external `goblin` parser): scan the exported names in order and return the
first one that starts with ` TS_SYM_PREFIX` and does not end with any entry
of ` TS_SYM_SUFFIXES`, stripped of the prefix; `none` when no name
qualifies. -/
def find_lang_sym : List (List Char) → Option (List Char)
  | [] => none
  | s :: rest =>
    if TS_SYM_PREFIX.isPrefixOf s && !(TS_SYM_SUFFIXES.any fun suf => suf.isSuffixOf s) then
      some (s.drop TS_SYM_PREFIX.length)
    else
      find_lang_sym rest

/-- Symbol-name selection of `load_parser` from `src/dynamic.rs`: an
explicitly supplied language name is used as given, without any check;
otherwise the name comes from `find_lang_sym`, and `None` there becomes the
fatal `Error::CantFindLangName` (modeled `none` here). -/
def load_parser_sym (syms : List (List Char)) (lang_name : Option (List Char)) :
    Option (List Char) :=
  match lang_name with
  | some n => some n
  | none => find_lang_sym syms

/-- The first-match selection criterion of `find_lang_sym`, as the
specification states it: an exported name qualifies when it starts with the
entry-point prefix and ends with no denylisted scanner-lifecycle suffix. -/
def good_lang_sym (s : List Char) : Bool :=
  TS_SYM_PREFIX.isPrefixOf s && !(TS_SYM_SUFFIXES.any fun suf => suf.isSuffixOf s)

/-- A tree-sitter byte range, from the `Range` values used in
`src/search/query.rs` (only the byte endpoints matter to the sort under
study). -/
structure TsRange where
  start_byte : Nat
  end_byte : Nat
deriving DecidableEq

/-- Stable insertion keyed on `start_byte`: the new element goes after every
element with a strictly smaller key and before the first element with an
equal or larger key, so elements with equal keys keep their original
relative order. -/
def insert_by_start (r : TsRange) : List TsRange → List TsRange
  | [] => [r]
  | x :: xs =>
    if x.start_byte < r.start_byte then x :: insert_by_start r xs
    else r :: x :: xs

/-- Embeds `capture_ranges.sort_by_key(|range| range.start_byte)` from
`run_query` in `src/search/query.rs`: Rust's `sort_by_key` is a stable sort,
and stable sorting by a key is implemented by stable insertion sort. -/
def sort_by_start_byte : List TsRange → List TsRange
  | [] => []
  | r :: rs => insert_by_start r (sort_by_start_byte rs)

/-- Per-match capture processing of `run_query` in `src/search/query.rs`:
the first capture of the match is the parent node whose text is rendered;
the ranges of the remaining captures are sorted by `start_byte` and become
the highlighted sub-ranges.  A match with no captures hits the `expect`
panic (modeled `none`); the appended `" @node"` capture prevents it. -/
def process_match (captures : List TsRange) : Option (TsRange × List TsRange) :=
  match captures with
  | [] => none
  | parent :: rest => some (parent, sort_by_start_byte rest)

/-- Sortedness by ascending `start_byte` (specification side). -/
def sorted_by_start : List TsRange → Bool
  | [] => true
  | [_] => true
  | a :: b :: t => Nat.ble a.start_byte b.start_byte && sorted_by_start (b :: t)

/-- Sortedness by ascending `start_byte` with ties broken by ascending
`end_byte` (specification side, the order the claim describes). -/
def sorted_by_start_end : List TsRange → Bool
  | [] => true
  | [_] => true
  | a :: b :: t =>
    (Nat.blt a.start_byte b.start_byte ||
      (a.start_byte == b.start_byte && Nat.ble a.end_byte b.end_byte)) &&
    sorted_by_start_end (b :: t)

/-- Line-break count of the claim on the position translator (specification
side): number of `'\n'` occurrences plus lone `'\r'` occurrences, a
`"\r\n"` pair counting as exactly one break that consumes both
characters. -/
def spec_line_breaks : List Char → Nat
  | [] => 0
  | '\r' :: '\n' :: cs => 1 + spec_line_breaks cs
  | '\r' :: cs => 1 + spec_line_breaks cs
  | '\n' :: cs => 1 + spec_line_breaks cs
  | _ :: cs => spec_line_breaks cs

/-- ASCII-style alphabetic check (specification side): the claim's boundary
test, alphabetic meaning an ASCII letter. -/
def ascii_is_alphabetic (c : Char) : Bool :=
  ('A' ≤ c && c ≤ 'Z') || ('a' ≤ c && c ≤ 'z')

/-! Basic facts about byte lengths and occurrences. -/

theorem charBytes_pos (c : Char) : 0 < charBytes c := by
  unfold charBytes
  repeat' split
  all_goals omega

theorem utf8Len_nil : utf8Len [] = 0 := rfl

theorem utf8Len_cons (c : Char) (cs : List Char) :
    utf8Len (c :: cs) = charBytes c + utf8Len cs := by
  simp [utf8Len]

theorem utf8Len_append (a b : List Char) :
    utf8Len (a ++ b) = utf8Len a + utf8Len b := by
  induction a with
  | nil => simp [utf8Len]
  | cons c cs ih => simp [utf8Len_cons, ih]; omega

theorem utf8Len_eq_zero {s : List Char} (h : utf8Len s = 0) : s = [] := by
  cases s with
  | nil => rfl
  | cons c cs =>
    rw [utf8Len_cons] at h
    have := charBytes_pos c
    omega

theorem utf8Len_pos {s : List Char} (h : s ≠ []) : 0 < utf8Len s := by
  cases s with
  | nil => exact absurd rfl h
  | cons c cs =>
    rw [utf8Len_cons]
    have := charBytes_pos c
    omega

theorem occursAtB_iff (s p : List Char) (d : Nat) :
    occursAtB s p d = true ↔ OccursAt s p d := by
  unfold occursAtB OccursAt
  rw [List.any_eq_true]
  constructor
  · rintro ⟨k, -, hk⟩
    rw [Bool.and_eq_true, beq_iff_eq, List.isPrefixOf_iff_prefix] at hk
    obtain ⟨hlen, suf, hsuf⟩ := hk
    exact ⟨s.take k, suf, by rw [List.append_assoc, hsuf, List.take_append_drop], hlen⟩
  · rintro ⟨pre, suf, rfl, hlen⟩
    refine ⟨pre.length, ?_, ?_⟩
    · rw [List.mem_range]
      simp [List.length_append]
      omega
    · rw [Bool.and_eq_true, beq_iff_eq, List.isPrefixOf_iff_prefix]
      constructor
      · rw [List.append_assoc, List.take_left]
        exact hlen
      · rw [List.append_assoc, List.drop_left]
        exact ⟨suf, rfl⟩

/-! Position translator: the line delta counts exactly the newline characters
walked, and the column is zero right after a newline. -/

theorem get_token_line_col_loop_fst (n : Nat) :
    ∀ (t : List Char) (line col : Nat),
      (get_token_line_col_loop t n line col).1 = line + (t.take n).count '\n' := by
  induction n with
  | zero => intro t line col; simp [get_token_line_col_loop]
  | succ n ih =>
    intro t line col
    cases t with
    | nil => simp [get_token_line_col_loop, ih]
    | cons c cs =>
      by_cases hc : c = '\n'
      · subst hc
        simp [get_token_line_col_loop, ih, List.count_cons]
        omega
      · simp [get_token_line_col_loop, hc, ih, List.count_cons]

theorem get_token_line_col_loop_snd_newline (k : Nat) :
    ∀ (t : List Char) (line col : Nat) (hk : k < t.length),
      t.get ⟨k, hk⟩ = '\n' → (get_token_line_col_loop t (k + 1) line col).2 = 0 := by
  induction k with
  | zero =>
    intro t line col hk hget
    cases t with
    | nil => simp at hk
    | cons c cs =>
      simp at hget
      simp [get_token_line_col_loop, hget]
  | succ k ih =>
    intro t line col hk hget
    cases t with
    | nil => simp at hk
    | cons c cs =>
      simp at hk
      have hget' : cs.get ⟨k, hk⟩ = '\n' := hget
      by_cases hc : c = '\n'
      · simpa [get_token_line_col_loop, hc] using ih cs (line + 1) 0 hk hget'
      · simpa [get_token_line_col_loop, hc] using ih cs line (col + 1) hk hget'

/-! Literal matcher: the `match_indices` scan is sound (every reported offset
is a real occurrence), leaves a gap of at least the pattern's byte length
between consecutive offsets, and is complete in the leftmost-first sense
(every occurrence overlaps some reported occurrence starting no later). -/

theorem match_indices_aux_sound {p : List Char} (hp : p ≠ []) :
    ∀ (fuel : Nat) (s : List Char) (i j : Nat), s.length < fuel →
      j ∈ match_indices_aux p fuel s i →
      ∃ pre suf, s = pre ++ p ++ suf ∧ j = i + utf8Len pre := by
  intro fuel
  induction fuel with
  | zero => intro s i j h; omega
  | succ fuel ih =>
    intro s i j hlen hj
    cases s with
    | nil => simp [match_indices_aux] at hj
    | cons c cs =>
      rw [match_indices_aux] at hj
      split at hj
      case isTrue hpre =>
        obtain ⟨rest, hrest⟩ := List.isPrefixOf_iff_prefix.mp hpre
        rcases List.mem_cons.mp hj with rfl | hj'
        · exact ⟨[], rest, by simp [← hrest], by simp [utf8Len]⟩
        · have hdrop : (c :: cs).drop p.length = rest := by
            rw [← hrest, List.drop_left]
          have hlen' : ((c :: cs).drop p.length).length < fuel := by
            have hplen : 0 < p.length := List.length_pos.mpr hp
            simp only [List.length_drop, List.length_cons] at hlen ⊢
            omega
          obtain ⟨pre, suf, heq, hje⟩ := ih _ _ _ hlen' hj'
          have hre : rest = pre ++ p ++ suf := by rw [← hdrop, heq]
          refine ⟨p ++ pre, suf, ?_, ?_⟩
          · rw [← hrest, hre]
            simp [List.append_assoc]
          · rw [hje, utf8Len_append]
            omega
      case isFalse hpre =>
        have hlen' : cs.length < fuel := by simp at hlen; omega
        obtain ⟨pre, suf, heq, hje⟩ := ih _ _ _ hlen' hj
        refine ⟨c :: pre, suf, by simp [heq], ?_⟩
        rw [hje, utf8Len_cons]
        omega

theorem match_indices_aux_chain (p : List Char) :
    ∀ (fuel : Nat) (s : List Char) (i : Nat),
      List.Chain' (fun a b => a + utf8Len p ≤ b) (match_indices_aux p fuel s i) ∧
      ∀ j ∈ match_indices_aux p fuel s i, i ≤ j := by
  intro fuel
  induction fuel with
  | zero => intro s i; simp [match_indices_aux]
  | succ fuel ih =>
    intro s i
    cases s with
    | nil => simp [match_indices_aux]
    | cons c cs =>
      rw [match_indices_aux]
      split
      case isTrue hpre =>
        obtain ⟨ihc, ihb⟩ := ih ((c :: cs).drop p.length) (i + utf8Len p)
        constructor
        · rw [List.chain'_cons']
          refine ⟨?_, ihc⟩
          intro b hb
          exact ihb b (List.mem_of_mem_head? hb)
        · intro j hj
          rcases List.mem_cons.mp hj with rfl | hj'
          · exact Nat.le_refl j
          · have := ihb j hj'
            omega
      case isFalse hpre =>
        obtain ⟨ihc, ihb⟩ := ih cs (i + charBytes c)
        refine ⟨ihc, ?_⟩
        intro j hj
        have := ihb j hj
        have := charBytes_pos c
        omega

theorem match_indices_aux_complete {p : List Char} (hp : p ≠ []) :
    ∀ (fuel : Nat) (s : List Char) (i d : Nat), s.length < fuel →
      OccursAt s p d →
      ∃ j ∈ match_indices_aux p fuel s i, j ≤ i + d ∧ i + d < j + utf8Len p := by
  intro fuel
  induction fuel with
  | zero => intro s i d h; omega
  | succ fuel ih =>
    intro s i d hlen hocc
    obtain ⟨pre, suf, heq, hd⟩ := hocc
    cases s with
    | nil =>
      exfalso
      simp at heq
      exact hp heq.2.1
    | cons c cs =>
      rw [match_indices_aux]
      split
      case isTrue hpre =>
        obtain ⟨rest, hrest⟩ := List.isPrefixOf_iff_prefix.mp hpre
        by_cases hdlt : d < utf8Len p
        · exact ⟨i, List.mem_cons_self _ _, by omega, by omega⟩
        · -- the occurrence lies beyond the match at the head; step past it
          have hppre : p <+: pre := by
            have h1 : pre <+: (c :: cs) := ⟨p ++ suf, by rw [← List.append_assoc, ← heq]⟩
            have h2 : p <+: (c :: cs) := ⟨rest, hrest⟩
            rcases List.prefix_or_prefix_of_prefix h2 h1 with h | h
            · exact h
            · obtain ⟨x, hx⟩ := h
              have hxlen : utf8Len x = 0 := by
                have := utf8Len_append pre x
                rw [hx] at this
                omega
              rw [utf8Len_eq_zero hxlen, List.append_nil] at hx
              rw [hx]
          obtain ⟨pre2, hpre2⟩ := hppre
          have hrest2 : rest = pre2 ++ p ++ suf := by
            have hx : p ++ rest = p ++ (pre2 ++ p ++ suf) := by
              rw [hrest, heq, ← hpre2]
              simp [List.append_assoc]
            exact List.append_cancel_left hx
          have hdrop : (c :: cs).drop p.length = rest := by
            rw [← hrest, List.drop_left]
          have hlen' : ((c :: cs).drop p.length).length < fuel := by
            have hplen : 0 < p.length := List.length_pos.mpr hp
            simp only [List.length_drop, List.length_cons] at hlen ⊢
            omega
          have hocc' : OccursAt ((c :: cs).drop p.length) p (utf8Len pre2) :=
            ⟨pre2, suf, by rw [hdrop, hrest2], rfl⟩
          obtain ⟨j, hjmem, hj1, hj2⟩ := ih _ (i + utf8Len p) _ hlen' hocc'
          have hdpre : d = utf8Len p + utf8Len pre2 := by
            rw [← hd, ← hpre2, utf8Len_append]
          exact ⟨j, List.mem_cons_of_mem _ hjmem, by omega, by omega⟩
      case isFalse hpre =>
        cases pre with
        | nil =>
          exfalso
          apply hpre
          rw [List.isPrefixOf_iff_prefix]
          exact ⟨suf, by rw [heq]; simp⟩
        | cons c0 pre2 =>
          have hc0 : c0 = c := by
            have := congrArg List.head? heq
            simpa using this.symm
          subst hc0
          have hcs : cs = pre2 ++ p ++ suf := by
            have := congrArg List.tail heq
            simpa using this
          have hlen' : cs.length < fuel := by simp at hlen; omega
          have hocc' : OccursAt cs p (utf8Len pre2) := ⟨pre2, suf, hcs, rfl⟩
          obtain ⟨j, hjmem, hj1, hj2⟩ := ih _ (i + charBytes c0) _ hlen' hocc'
          have hdpre : d = charBytes c0 + utf8Len pre2 := by
            rw [← hd, utf8Len_cons]
          exact ⟨j, hjmem, by omega, by omega⟩

theorem match_token_ww_false (t p : List Char) (is_id cs : Bool) :
    match_token t p is_id false cs = match_indices (fold_token cs t) p := by
  unfold match_token
  simp

theorem match_token_ww_true (t p : List Char) (cs : Bool) :
    match_token t p false true cs =
      (match_indices (fold_token cs t) p).filter
        (fun mb => check_word_bounds (fold_token cs t) mb (mb + utf8Len p)) := by
  unfold match_token
  simp

/-! Capture sorting: stable insertion keyed on the start byte sorts by start
byte and keeps elements with a common start byte in their original order. -/

theorem sorted_by_start_insert (r : TsRange) :
    ∀ l : List TsRange, sorted_by_start l = true →
      sorted_by_start (insert_by_start r l) = true := by
  intro l
  induction l with
  | nil => intro _; simp [insert_by_start, sorted_by_start]
  | cons x xs ih =>
    intro hs
    rw [insert_by_start]
    split
    case isTrue hlt =>
      cases xs with
      | nil =>
        simp [insert_by_start, sorted_by_start, Nat.ble_eq]
        omega
      | cons y ys =>
        have hs2 : x.start_byte ≤ y.start_byte ∧ sorted_by_start (y :: ys) = true := by
          simp only [sorted_by_start, Bool.and_eq_true, Nat.ble_eq] at hs
          exact hs
        have hs' : sorted_by_start (y :: ys) = true := hs2.2
        have hxy : x.start_byte ≤ y.start_byte := hs2.1
        have hrec := ih hs'
        rw [insert_by_start] at hrec ⊢
        split at hrec
        case isTrue h =>
          rw [if_pos h]
          simp only [sorted_by_start, Bool.and_eq_true, Nat.ble_eq]
          exact ⟨hxy, hrec⟩
        case isFalse h =>
          rw [if_neg h]
          simp only [sorted_by_start, Bool.and_eq_true, Nat.ble_eq] at hrec ⊢
          exact ⟨by omega, hrec⟩
    case isFalse hge =>
      simp only [sorted_by_start, Bool.and_eq_true, Nat.ble_eq]
      exact ⟨by omega, hs⟩

theorem filter_insert_by_start (r : TsRange) (k : Nat) :
    ∀ l : List TsRange,
      (insert_by_start r l).filter (fun x => x.start_byte == k) =
        (r :: l).filter (fun x => x.start_byte == k) := by
  intro l
  induction l with
  | nil => simp [insert_by_start]
  | cons x xs ih =>
    rw [insert_by_start]
    split
    case isTrue hlt =>
      by_cases hx : x.start_byte = k
      · by_cases hr : r.start_byte = k
        · omega
        · simp [List.filter_cons, hx, hr] at ih ⊢
          exact ih
      · simp [List.filter_cons, hx] at ih ⊢
        exact ih
    case isFalse hge =>
      rfl

theorem sort_by_start_byte_sorted :
    ∀ l : List TsRange, sorted_by_start (sort_by_start_byte l) = true := by
  intro l
  induction l with
  | nil => simp [sort_by_start_byte, sorted_by_start]
  | cons r rs ih =>
    rw [sort_by_start_byte]
    exact sorted_by_start_insert r _ ih

theorem sort_by_start_byte_stable (k : Nat) :
    ∀ l : List TsRange,
      (sort_by_start_byte l).filter (fun x => x.start_byte == k) =
        l.filter (fun x => x.start_byte == k) := by
  intro l
  induction l with
  | nil => rfl
  | cons r rs ih =>
    rw [sort_by_start_byte, filter_insert_by_start, List.filter_cons, List.filter_cons, ih]

/-! Grammar symbol resolution: the scan is the first-match filter the
specification describes, and an automatically resolved name never keeps a
denylisted suffix. -/

theorem find_lang_sym_eq_filter :
    ∀ syms : List (List Char),
      find_lang_sym syms =
        ((syms.filter good_lang_sym).head?).map
          (fun s => s.drop TS_SYM_PREFIX.length) := by
  intro syms
  induction syms with
  | nil => rfl
  | cons s rest ih =>
    rw [find_lang_sym, List.filter_cons]
    by_cases h : good_lang_sym s = true
    · rw [if_pos h]
      rw [good_lang_sym] at h
      rw [if_pos h]
      rfl
    · rw [if_neg h]
      rw [good_lang_sym] at h
      rw [if_neg h]
      exact ih

theorem suffix_of_drop {suf s : List Char} (k : Nat)
    (h : suf.isSuffixOf (s.drop k) = true) : suf.isSuffixOf s = true := by
  rw [List.isSuffixOf_iff_suffix] at h ⊢
  exact h.trans (List.drop_suffix k s)

theorem find_lang_sym_no_denylisted_suffix (syms : List (List Char)) :
    (find_lang_sym syms).all
      (fun r => !(TS_SYM_SUFFIXES.any fun suf => suf.isSuffixOf r)) = true := by
  rw [find_lang_sym_eq_filter]
  cases hh : (syms.filter good_lang_sym).head? with
  | none => rfl
  | some s =>
    have hmem : s ∈ syms.filter good_lang_sym := List.mem_of_mem_head? (by simp [hh])
    have hgood : good_lang_sym s = true := (List.mem_filter.mp hmem).2
    rw [good_lang_sym, Bool.and_eq_true] at hgood
    have hanyf : (TS_SYM_SUFFIXES.any
        fun suf => suf.isSuffixOf (s.drop TS_SYM_PREFIX.length)) = false := by
      by_contra hcon
      rw [Bool.not_eq_false] at hcon
      obtain ⟨suf, hsmem, hsuf⟩ := List.any_eq_true.mp hcon
      have hsufs : suf.isSuffixOf s = true := suffix_of_drop _ hsuf
      have hall : TS_SYM_SUFFIXES.any (fun suf => suf.isSuffixOf s) = true :=
        List.any_eq_true.mpr ⟨suf, hsmem, hsufs⟩
      have h2 := hgood.2
      simp [hall] at h2
    simp [hanyf]

/-! Claim theorems. -/

/-- C1, counterexample: the claim's condition "whole_word is false (or the
token is not an identifier)" also admits `whole_word = true` on a
non-identifier token, and there the matcher does not return all occurrences:
for token `"tey te tey"` and pattern `"te"` (not an identifier, whole word,
case-sensitive) the pattern occurs at byte offset 0, yet the matcher returns
only `[4]` — not the full occurrence list `[0, 4, 7]` the claim requires. -/
theorem C1_counterexample :
    match_token "tey te tey".data "te".data false true true = [4]
    ∧ occursAtB "tey te tey".data "te".data 0 = true
    ∧ (0 : Nat) ∉ match_token "tey te tey".data "te".data false true true := by
  decide

/-- C1, amended: for every token and non-empty pattern, when `whole_word` is
false `match_token` returns exactly the start byte offsets of all
non-overlapping leftmost-first occurrences of the pattern in the
case-normalized token, in ascending order: every returned offset is an
occurrence, consecutive offsets are separated by at least the pattern's byte
length (hence strictly ascending), and every occurrence of the pattern
overlaps a returned occurrence that starts no later; in particular pattern
`"te"` in token `"tey te tey"` yields `[0, 4, 7]` and pattern `"test"` in
token `"testtest"` yields `[0, 4]`. -/
theorem C1_amended :
    (∀ (token pat : List Char) (is_id cs : Bool), pat ≠ [] →
      (∀ j ∈ match_token token pat is_id false cs, OccursAt (fold_token cs token) pat j)
      ∧ List.Chain' (fun a b => a + utf8Len pat ≤ b) (match_token token pat is_id false cs)
      ∧ List.Chain' (fun a b => a < b) (match_token token pat is_id false cs)
      ∧ (∀ d, OccursAt (fold_token cs token) pat d →
          ∃ j ∈ match_token token pat is_id false cs, j ≤ d ∧ d < j + utf8Len pat))
    ∧ match_token "tey te tey".data "te".data false false true = [0, 4, 7]
    ∧ match_token "testtest".data "test".data false false true = [0, 4] := by
  refine ⟨?_, by decide, by decide⟩
  intro token pat is_id cs hp
  rw [match_token_ww_false]
  simp only [match_indices]
  set s := fold_token cs token with hs
  have hlen : s.length < s.length + 1 := Nat.lt_succ_self _
  refine ⟨?_, ?_, ?_, ?_⟩
  · intro j hj
    obtain ⟨pre, suf, heq, hje⟩ := match_indices_aux_sound hp _ _ _ _ hlen hj
    exact ⟨pre, suf, heq, by omega⟩
  · exact (match_indices_aux_chain pat _ _ _).1
  · refine List.Chain'.imp ?_ (match_indices_aux_chain pat _ s 0).1
    intro a b hab
    have := utf8Len_pos hp
    omega
  · intro d hocc
    obtain ⟨j, hjmem, hj1, hj2⟩ := match_indices_aux_complete hp _ _ 0 _ hlen hocc
    exact ⟨j, hjmem, by omega, by omega⟩

/-- Witness for `C1_amended` at token `"tey te tey"`, pattern `"te"`,
case-sensitive. -/
theorem C1_amended_witness :
    "te".data ≠ []
    ∧ ((∀ j ∈ match_token "tey te tey".data "te".data false false true,
          OccursAt (fold_token true "tey te tey".data) "te".data j)
      ∧ List.Chain' (fun a b => a + utf8Len "te".data ≤ b)
          (match_token "tey te tey".data "te".data false false true)
      ∧ List.Chain' (fun a b => a < b)
          (match_token "tey te tey".data "te".data false false true)
      ∧ (∀ d, OccursAt (fold_token true "tey te tey".data) "te".data d →
          ∃ j ∈ match_token "tey te tey".data "te".data false false true,
            j ≤ d ∧ d < j + utf8Len "te".data)) :=
  ⟨by decide, C1_amended.1 "tey te tey".data "te".data false true (by decide)⟩

/-- C2, counterexample: a bare carriage return is not a line break for
`get_token_line_col` — walking one character into the token `"\ra"` yields
line delta 0 (and column advanced by one), while the claim's break count for
that prefix is 1. -/
theorem C2_counterexample :
    (get_token_line_col ['\r', 'a'] 0 1).1 = 0
    ∧ (get_token_line_col ['\r', 'a'] 0 1).2 = 1
    ∧ spec_line_breaks (['\r', 'a'].take 1) = 1 := by
  decide

/-- C2, amended: for every token and offset `k`, the line delta returned by
`get_token_line_col` equals the number of `'\n'` occurrences among the first
`k` characters walked — a bare `'\r'` is not a line break and a `"\r\n"`
pair counts through its `'\n'` alone — and the column is reset: one step
past a `'\n'` the column is 0. -/
theorem C2_amended (t : List Char) (c0 k : Nat) :
    (get_token_line_col t c0 k).1 = (t.take k).count '\n'
    ∧ (∀ hk : k < t.length, t.get ⟨k, hk⟩ = '\n' →
        (get_token_line_col t c0 (k + 1)).2 = 0) := by
  constructor
  · rw [get_token_line_col]
    simpa using get_token_line_col_loop_fst k t 0 c0
  · intro hk hget
    rw [get_token_line_col]
    exact get_token_line_col_loop_snd_newline k t 0 c0 hk hget

/-- Witness for `C2_amended` at token `"a\nb"`, start column 7, offset 1
(the newline position). -/
theorem C2_amended_witness :
    (get_token_line_col "a\nb".data 7 1).1 = ("a\nb".data.take 1).count '\n'
    ∧ (get_token_line_col "a\nb".data 7 2).2 = 0 :=
  ⟨(C2_amended "a\nb".data 7 1).1,
   (C2_amended "a\nb".data 7 1).2 (by decide) (by decide)⟩

/-- C3: for a whole-word identifier token, `match_token` returns `[0]`
exactly when the case-normalized token equals the pre-folded pattern, and
returns either `[0]` or the empty list — no partial or substring matches are
ever produced. -/
theorem C3_whole_word_identifier (t p : List Char) (cs : Bool) :
    (match_token t p true true cs = [0] ↔ fold_token cs t = p)
    ∧ (match_token t p true true cs = [0] ∨ match_token t p true true cs = []) := by
  by_cases h : fold_token cs t = p
  · unfold match_token
    simp [h]
  · unfold match_token
    simp [h]

/-- C4, counterexample: the word-boundary test is Rust's Unicode
`char::is_alphabetic`, not an ASCII-style check: `'é'` is not an ASCII
letter, yet the occurrence of `"te"` at byte offset 2 of token `"éte"` is
discarded under `whole_word` because `'é'` is Unicode-alphabetic, so the
matcher returns `[]` where the claim's ASCII-style boundary would keep the
occurrence. -/
theorem C4_counterexample :
    match_token "éte".data "te".data false true true = []
    ∧ occursAtB "éte".data "te".data 2 = true
    ∧ ascii_is_alphabetic 'é' = false
    ∧ char_is_alphabetic 'é' = true := by
  decide

/-- C4, amended: with `whole_word` set on a non-identifier token, an
occurrence is kept if and only if it is an occurrence of the plain scan and
both the character immediately before the match (if any) and the character
immediately after it (if any) are non-alphabetic under Rust's Unicode
`char::is_alphabetic`; a missing neighbor at either end always counts as a
word boundary. -/
theorem C4_amended (t p : List Char) (cs : Bool) (i : Nat) :
    i ∈ match_token t p false true cs ↔
      (i ∈ match_token t p false false cs
        ∧ ((takeBytes (fold_token cs t) i).getLast?.all fun c => !char_is_alphabetic c) = true
        ∧ ((dropBytes (fold_token cs t) (i + utf8Len p)).head?.all
            fun c => !char_is_alphabetic c) = true) := by
  rw [match_token_ww_true, match_token_ww_false, List.mem_filter, check_word_bounds,
    Bool.and_eq_true]

/-- C5: under the Smart case policy a pattern with no uppercase character is
matched case-insensitively but is *not* lowercased by `mk_search_mode`, and
the matcher's debug assertion `pattern == pattern.to_lowercase()` is
violated for the titlecase pattern `"ǅ"` (U+01C5, category Lt): it has no
uppercase character, yet its lowercase form is `"ǆ"` (U+01C6). -/
theorem C5_smart_case_unfolded :
    (mk_pat Casing.smart ['ǅ']).case_sensitive = false
    ∧ (mk_pat Casing.smart ['ǅ']).word = ['ǅ']
    ∧ to_lowercase (mk_pat Casing.smart ['ǅ']).word ≠ (mk_pat Casing.smart ['ǅ']).word := by
  decide

/-- C6, counterexample: a caller query with zero captures, such as
`"(function_item)"`, is not rejected — `mk_search_mode` appends the dummy
capture `" @node"` and produces an executable query mode; no `NoCaptures`
error exists anywhere in the construction. -/
theorem C6_counterexample :
    mk_search_mode Casing.smart none (some "(function_item)".data) =
      some (SearchMode.query "(function_item) @node".data)
    ∧ capture_count "(function_item)".data = 0 := by
  decide

/-- C6, amended: every literal query string, with any number of
caller-defined captures including zero, is accepted and executed with the
dummy capture `" @node"` appended by the tool, so every executed query has
at least one capture — tool-added, not caller-defined. -/
theorem C6_amended (casing : Casing) (pat : Option (List Char)) (q : List Char) :
    mk_search_mode casing pat (some q) = some (SearchMode.query (q ++ " @node".data))
    ∧ 1 ≤ capture_count (q ++ " @node".data) := by
  refine ⟨rfl, ?_⟩
  rw [capture_count, List.count_append]
  have h : (" @node".data).count '@' = 1 := by decide
  omega

/-- C7, counterexample: an explicitly supplied entry-point name is returned
unchecked, so the resolved symbol can end in a denylisted scanner-lifecycle
suffix. -/
theorem C7_counterexample :
    load_parser_sym [] (some "tree_sitter_x_external_scanner_scan".data) =
      some "tree_sitter_x_external_scanner_scan".data
    ∧ "external_scanner_scan".data ∈ TS_SYM_SUFFIXES
    ∧ "external_scanner_scan".data.isSuffixOf
        "tree_sitter_x_external_scanner_scan".data = true := by
  decide

/-- C7, amended: when no explicit entry-point name is supplied, the resolver
selects the first exported dynamic symbol that starts with the entry-point
prefix and does not end with any denylisted scanner-lifecycle suffix
(returning it with the prefix stripped), fails with `CantFindLangName`
(modeled `none`) exactly when no such symbol exists, and an automatically
resolved symbol never ends in a denylisted suffix; an explicitly supplied
name is returned unchecked. -/
theorem C7_amended (syms : List (List Char)) :
    find_lang_sym syms =
      ((syms.filter good_lang_sym).head?).map (fun s => s.drop TS_SYM_PREFIX.length)
    ∧ (find_lang_sym syms).all
        (fun r => !(TS_SYM_SUFFIXES.any fun suf => suf.isSuffixOf r)) = true
    ∧ (load_parser_sym syms none = none ↔ syms.filter good_lang_sym = []) := by
  refine ⟨find_lang_sym_eq_filter syms, find_lang_sym_no_denylisted_suffix syms, ?_⟩
  show find_lang_sym syms = none ↔ _
  rw [find_lang_sym_eq_filter syms]
  simp [List.head?_eq_none_iff]

/-- C8, counterexample: capture ranges sharing a start byte are left in
their original order by the stable `sort_by_key` on the start byte — ranges
`(0,5)` then `(0,2)` are rendered in that order, which is not sorted by
ascending end byte as the claim states. -/
theorem C8_counterexample :
    process_match [TsRange.mk 0 10, TsRange.mk 0 5, TsRange.mk 0 2] =
      some (TsRange.mk 0 10, [TsRange.mk 0 5, TsRange.mk 0 2])
    ∧ sorted_by_start_end [TsRange.mk 0 5, TsRange.mk 0 2] = false := by
  decide

/-- C8, amended: the highlighted sub-capture ranges are rendered sorted by
ascending start byte, and the sort is stable: ranges sharing a start byte
keep their original capture order (for every key, the subsequence of ranges
with that start byte is unchanged), with no end-byte tie-breaking. -/
theorem C8_amended (l : List TsRange) (k : Nat) :
    sorted_by_start (sort_by_start_byte l) = true
    ∧ (sort_by_start_byte l).filter (fun x => x.start_byte == k) =
        l.filter (fun x => x.start_byte == k) :=
  ⟨sort_by_start_byte_sorted l, sort_by_start_byte_stable k l⟩

/-- C9: under case-insensitive matching the returned offsets index the
lowercased copy of the token, not the original: for token `"Ⱥte"` (U+023A
occupies 2 bytes, its lowercase `'ⱥ'` occupies 3) the matcher returns `[3]`,
but in the original token the pattern `"te"` occurs at byte offset 2 and no
occurrence starts at byte offset 3. -/
theorem C9_folded_offset_mismatch :
    match_token "Ⱥte".data "te".data false false false = [3]
    ∧ occursAtB "Ⱥte".data "te".data 3 = false
    ∧ occursAtB "Ⱥte".data "te".data 2 = true
    ∧ utf8Len "Ⱥte".data = 4 := by
  decide

/-- C10: for a non-identifier token, the occurrence list with the whole-word
constraint enabled is a subsequence of the list without it: the constraint
only removes occurrences and never adds or reorders them. -/
theorem C10_whole_word_sublist (t p : List Char) (cs : Bool) :
    List.Sublist (match_token t p false true cs) (match_token t p false false cs) := by
  rw [match_token_ww_true, match_token_ww_false]
  exact List.filter_sublist _

/-! The unit tests of `match_token` and `check_word_bounds` in the source
(`test_match_token`, `test_word_bounds`) hold of the embedding. -/

theorem match_token_source_tests :
    match_token "test".data "test".data false false false = [0]
    ∧ match_token "test".data "test".data true false false = [0]
    ∧ match_token "test".data "Test".data true true true = []
    ∧ match_token "Test".data "Test".data true true true = [0]
    ∧ match_token "just testing".data "test".data false false false = [5]
    ∧ match_token "just testing".data "test".data false true false = []
    ∧ match_token "tey te tey".data "te".data false false false = [0, 4, 7]
    ∧ match_token "tey te tey".data "te".data false true false = [4]
    ∧ match_token "tey Te tey".data "Te".data false false true = [4] := by
  decide

theorem check_word_bounds_source_tests :
    check_word_bounds "test".data 0 4 = true
    ∧ check_word_bounds "test".data 0 3 = false
    ∧ check_word_bounds "test".data 1 4 = false
    ∧ check_word_bounds "test".data 1 3 = false
    ∧ check_word_bounds "test".data 1 2 = false
    ∧ check_word_bounds "test".data 2 3 = false
    ∧ check_word_bounds "test".data 2 2 = false
    ∧ check_word_bounds "a b c".data 2 3 = true
    ∧ check_word_bounds "a b c".data 2 4 = false
    ∧ check_word_bounds "a b c".data 2 5 = true := by
  decide
